import Mathlib

/-
Verification development for the HTMLRedactionTool repository.

The core of the repository is `src/redactor-app/services/redaction.js`:
a pattern compiler (`compilePatterns`, with the fixed `DEFAULT_PATTERNS`
regex literals) and three scan/transform operations
(`identifySensitiveText`, `previewSensitiveContent`,
`redactSensitiveContent`) built on JavaScript global-regex primitives
(`RegExp.prototype.exec` with `lastIndex`, `String.prototype.replace`).

This file gives a shallow embedding of that module.  The JavaScript
regex engine itself is host functionality; it is modelled here by a
small backtracking matcher (`matchR`) over an explicit regex AST that
covers exactly the constructs appearing in the module's patterns:
character classes, sequencing, alternation, greedy and lazy option,
greedy and lazy repetition of a character class, bounded counted
repetition (desugared to nested options, which reproduces the
greedy/lazy priority order of a backtracking engine), and the `\b`
word-boundary assertion.  Strings are modelled as `List Char`; the
potentially non-terminating `while (exec)` scan loop of
`identifySensitiveText` is modelled with explicit fuel, `none` standing
for a loop that has not finished within the given fuel.
-/

namespace Redaction

/-- A character class: a negation flag plus inclusive character ranges.
This models both bracket classes such as `[a-zA-Z0-9_.+-]` and the
escape classes `\d`, `\s`, `\w` used by the regex literals in
`services/redaction.js`. -/
structure CharClass where
  neg : Bool
  ranges : List (Char × Char)
deriving DecidableEq

/-- Membership of a character in a class (negation-aware). -/
def CharClass.mem (cc : CharClass) (c : Char) : Bool :=
  (cc.ranges.any fun lohi => decide (lohi.1 ≤ c) && decide (c ≤ lohi.2)) != cc.neg

/-- Abstract syntax of the JavaScript regexes used by the module.
`starCls` is (greedy or lazy) unbounded repetition of a character
class — the only unbounded repetition the module's patterns use
(`+` on a class is desugared to class followed by class-star, and
counted repetition `{m,n}` is desugared to nested options). -/
inductive Regex where
  | eps
  | cls (cc : CharClass)
  | seq (r₁ r₂ : Regex)
  | alt (r₁ r₂ : Regex)
  | opt (lz : Bool) (r : Regex)
  | starCls (lz : Bool) (cc : CharClass)
  | wb
deriving DecidableEq

/-- Word characters for `\b`, per ECMAScript: `[a-zA-Z0-9_]`. -/
def wordRanges : List (Char × Char) := [('a', 'z'), ('A', 'Z'), ('0', '9'), ('_', '_')]

def isWordChar (c : Char) : Bool :=
  wordRanges.any fun lohi => decide (lohi.1 ≤ c) && decide (c ≤ lohi.2)

def isWordOpt : Option Char → Bool
  | none => false
  | some c => isWordChar c

/-- The ECMAScript word-boundary test at a position given the previous
character and the remaining input. -/
def atBoundary (prev : Option Char) (rest : List Char) : Bool :=
  isWordOpt prev != isWordOpt rest.head?

/-- Matcher for class-star, in continuation-passing style.  Greedy
repetition prefers consuming a further class character before yielding
to the continuation; lazy repetition tries the continuation first.
This reproduces the backtracking priority order of the JavaScript
engine. -/
def starClsM (lz : Bool) (cc : CharClass)
    (prev : Option Char) (rest : List Char)
    (k : Option Char → List Char → Option (List Char)) : Option (List Char) :=
  match rest with
  | [] => k prev []
  | c :: rest' =>
    if cc.mem c then
      if lz then
        (k prev rest) <|> (starClsM lz cc (some c) rest' k)
      else
        (starClsM lz cc (some c) rest' k) <|> (k prev rest)
    else k prev rest

/-- Backtracking matcher in continuation-passing style, following the
ECMAScript priority order: alternation prefers its left branch, greedy
option prefers presence, lazy option prefers absence.  `prev` is the
character just before the current position (for `\b`); the continuation
receives the updated previous character and the remaining input. -/
def matchR : Regex → Option Char → List Char →
    (Option Char → List Char → Option (List Char)) → Option (List Char)
  | .eps, prev, rest, k => k prev rest
  | .cls cc, _, rest, k =>
    match rest with
    | [] => none
    | c :: rest' => if cc.mem c then k (some c) rest' else none
  | .seq r₁ r₂, prev, rest, k =>
    matchR r₁ prev rest (fun p' rest' => matchR r₂ p' rest' k)
  | .alt r₁ r₂, prev, rest, k =>
    (matchR r₁ prev rest k) <|> (matchR r₂ prev rest k)
  | .opt lz r, prev, rest, k =>
    if lz then (k prev rest) <|> (matchR r prev rest k)
    else (matchR r prev rest k) <|> (k prev rest)
  | .starCls lz cc, prev, rest, k => starClsM lz cc prev rest k
  | .wb, prev, rest, k => if atBoundary prev rest then k prev rest else none

/-- The character just before position `i` of `s` (none at position 0). -/
def prevCharAt (s : List Char) (i : Nat) : Option Char :=
  if i = 0 then none else s[i - 1]?

/-- Length of the (priority-first) match of `r` at position `i` of `s`,
or `none` when `r` does not match there.  This models attempting the
regex at one position, as the ECMAScript matching algorithm does. -/
def matchAt (r : Regex) (s : List Char) (i : Nat) : Option Nat :=
  match matchR r (prevCharAt s i) (s.drop i) (fun _ rest' => some rest') with
  | none => none
  | some rest' => some ((s.drop i).length - rest'.length)

/-- Search for the leftmost match at a position `≥ li`, trying at most
`k` successive positions.  Returns the match position and length. -/
def execFindAux (r : Regex) (s : List Char) : Nat → Nat → Option (Nat × Nat)
  | 0, _ => none
  | k + 1, li =>
    match matchAt r s li with
    | some len => some (li, len)
    | none => execFindAux r s k (li + 1)

/-- Model of `pattern.exec(content)` for a global regex with
`lastIndex = li`: the leftmost match starting at a position `≥ li`
(searching up to the end of the string), or `none` when there is no
further match.  JavaScript then sets `lastIndex` to the match end on
success and resets it to 0 on failure; that bookkeeping is modelled
where the scan loops are modelled. -/
def execFind (r : Regex) (s : List Char) (li : Nat) : Option (Nat × Nat) :=
  execFindAux r s (s.length + 1 - li) li

/-- The `while ((match = pattern.exec(content)) !== null)` loop of
`identifySensitiveText` (lines 54-62), with explicit fuel.  After each
match the next search starts at `lastIndex = index + length` — exactly
as JavaScript `exec` sets it, with no adjustment for empty matches, so
the loop never advances past an empty match; `none` models a loop that
has not finished within the given fuel. -/
def scanPattern : Nat → Regex → List Char → Nat → Option (List (Nat × Nat))
  | 0, _, _, _ => none
  | fuel + 1, r, s, li =>
    match execFind r s li with
    | none => some []
    | some (i, len) => (scanPattern fuel r s (i + len)).map (fun ms => (i, len) :: ms)

/-- `chainFrom li ms` holds when the match list `ms` is a proper
global-scan chain starting at `li`: each match starts at or after the
current scan position, is nonempty, and moves the scan position to its
end.  In particular successive matches of one pattern never overlap. -/
def chainFrom : Nat → List (Nat × Nat) → Bool
  | _, [] => true
  | li, (i, len) :: ms => decide (li ≤ i) && decide (1 ≤ len) && chainFrom (i + len) ms

/-- `nonNullable r` holds when `r` can never match the empty string:
a sufficient syntactic condition used to delimit the patterns on which
the `exec` scan loop of the module terminates. -/
def nonNullable : Regex → Bool
  | .eps => false
  | .cls _ => true
  | .seq r₁ r₂ => nonNullable r₁ || nonNullable r₂
  | .alt r₁ r₂ => nonNullable r₁ && nonNullable r₂
  | .opt _ _ => false
  | .starCls _ _ => false
  | .wb => false

/-- One pass of `String.prototype.replace` with a global regex
(lines 84-86 and line 110 of the module), with explicit fuel.  `pos`
is the end of the previous match (start of the next untouched gap) and
`li` the search position; per ECMAScript, after an empty match the
search position advances by one character while the skipped character
stays in the following gap. -/
def replaceFuel (repl : List Char → List Char) (r : Regex) (s : List Char) :
    Nat → Nat → Nat → Option (List Char)
  | 0, _, _ => none
  | fuel + 1, pos, li =>
    match execFind r s li with
    | none => some (s.drop pos)
    | some (i, len) =>
      (replaceFuel repl r s fuel (i + len) (if len = 0 then i + 1 else i + len)).map
        (fun tail => (s.drop pos).take (i - pos) ++ repl ((s.drop i).take len) ++ tail)

/-- `String.prototype.replace` with a global regex: the search position
strictly advances at every step, so fuel `s.length + 2` always
suffices. -/
def replaceAll (repl : List Char → List Char) (r : Regex) (s : List Char) :
    Option (List Char) :=
  replaceFuel repl r s (s.length + 2) 0 0

/-- The gap/match decomposition that a global-replace pass walks:
the list of (untouched gap, matched text) pairs together with the
trailing untouched gap. -/
def segmentsFuel (r : Regex) (s : List Char) :
    Nat → Nat → Nat → Option (List (List Char × List Char) × List Char)
  | 0, _, _ => none
  | fuel + 1, pos, li =>
    match execFind r s li with
    | none => some ([], s.drop pos)
    | some (i, len) =>
      (segmentsFuel r s fuel (i + len) (if len = 0 then i + 1 else i + len)).map
        (fun st => (((s.drop pos).take (i - pos), (s.drop i).take len) :: st.1, st.2))

/-- The gap/match decomposition of a whole global-replace pass. -/
def segments (r : Regex) (s : List Char) :
    Option (List (List Char × List Char) × List Char) :=
  segmentsFuel r s (s.length + 2) 0 0

/-- Reassemble a gap/match decomposition, transforming each matched
text with `repl` and leaving every gap untouched. -/
def renderSegs (repl : List Char → List Char)
    (st : List (List Char × List Char) × List Char) : List Char :=
  (st.1.map fun gm => gm.1 ++ repl gm.2).flatten ++ st.2

/-- The fixed highlight marker of `previewSensitiveContent` (line 85):
the match text wrapped in the `mark` span with the fixed CSS class. -/
def wrapMark (m : List Char) : List Char :=
  "<mark class=\"redact-highlight\">".data ++ m ++ "</mark>".data

/-- The fixed redaction token of `redactSensitiveContent` (line 110). -/
def redactionToken : List Char := "[REDACTED]".data

/-- A compiled pattern: the executable matcher plus its display form
(`pattern.toString()`, used for the `pattern` field of a match). -/
structure CompiledPattern where
  re : Regex
  display : String
deriving DecidableEq

/-- A single literal character as a class. -/
def litC (c : Char) : Regex := .cls ⟨false, [(c, c)]⟩

/-- Class followed by greedy class-star: the desugaring of `+` on a
character class. -/
def plusCls (cc : CharClass) : Regex := .seq (.cls cc) (.starCls false cc)

/-- `n` mandatory copies of `r` in sequence (for `r{n}`). -/
def seqN : Nat → Regex → Regex
  | 0, _ => .eps
  | n + 1, r => .seq r (seqN n r)

/-- `n` nested optional copies of `r`: with greedy options this is the
desugaring of greedy `r{0,n}` (prefer more copies), with lazy options
of lazy `r{0,n}?` (prefer fewer). -/
def optChain (lz : Bool) : Nat → Regex → Regex
  | 0, _ => .eps
  | n + 1, r => .opt lz (.seq r (optChain lz n r))

/-- Counted repetition `r{lo,hi}` (lazy when `lz`), desugared as `lo`
mandatory copies followed by `hi - lo` nested optional copies, which
reproduces a backtracking engine's priority order. -/
def repBounded (lz : Bool) (lo hi : Nat) (r : Regex) : Regex :=
  .seq (seqN lo r) (optChain lz (hi - lo) r)

/-- `\d`. -/
def digitCls : CharClass := ⟨false, [('0', '9')]⟩

/-- The whitespace characters modelled for `\s` (the common ASCII
whitespace; the full ECMAScript `\s` also contains exotic Unicode
spaces that no claim exercises). -/
def wsPairs : List (Char × Char) :=
  [(' ', ' '), ('\t', '\t'), ('\n', '\n'), ('\r', '\r'),
   ('\x0b', '\x0b'), ('\x0c', '\x0c')]

/-- `\s`. -/
def wsCls : CharClass := ⟨false, wsPairs⟩

/-- `\w`. -/
def wordCls : CharClass := ⟨false, wordRanges⟩

/-- `[\s-]` (phone pattern). -/
def wsDashCls : CharClass := ⟨false, wsPairs ++ [('-', '-')]⟩

/-- `[\s.-]` (phone pattern separators). -/
def wsDotDashCls : CharClass := ⟨false, wsPairs ++ [('.', '.'), ('-', '-')]⟩

/-- `[-.]` (SSN pattern separators). -/
def dashDotCls : CharClass := ⟨false, [('-', '-'), ('.', '.')]⟩

/-- `[ -]` (credit-card pattern separators). -/
def spaceDashCls : CharClass := ⟨false, [(' ', ' '), ('-', '-')]⟩

/-- `[a-zA-Z0-9_.+-]` — email local part. -/
def emailLocalCls : CharClass :=
  ⟨false, [('a', 'z'), ('A', 'Z'), ('0', '9'), ('_', '_'), ('.', '.'), ('+', '+'), ('-', '-')]⟩

/-- `[a-zA-Z0-9-]` — email domain label. -/
def emailDomCls : CharClass :=
  ⟨false, [('a', 'z'), ('A', 'Z'), ('0', '9'), ('-', '-')]⟩

/-- `[a-zA-Z0-9-.]` — email domain tail. -/
def emailDomTailCls : CharClass :=
  ⟨false, [('a', 'z'), ('A', 'Z'), ('0', '9'), ('-', '-'), ('.', '.')]⟩

/-- AST of `/([a-zA-Z0-9_.+-]+@[a-zA-Z0-9-]+\.[a-zA-Z0-9-.]+)/g`
(the capture group is irrelevant to the overall match). -/
def emailRegex : Regex :=
  .seq (plusCls emailLocalCls)
    (.seq (litC '@')
      (.seq (plusCls emailDomCls)
        (.seq (litC '.') (plusCls emailDomTailCls))))

/-- AST of `/(\+\d{1,3}[\s-])?\(?\d{3}\)?[\s.-]?\d{3}[\s.-]?\d{4}/g`. -/
def phoneRegex : Regex :=
  .seq (.opt false (.seq (litC '+')
          (.seq (repBounded false 1 3 (.cls digitCls)) (.cls wsDashCls))))
    (.seq (.opt false (litC '('))
      (.seq (seqN 3 (.cls digitCls))
        (.seq (.opt false (litC ')'))
          (.seq (.opt false (.cls wsDotDashCls))
            (.seq (seqN 3 (.cls digitCls))
              (.seq (.opt false (.cls wsDotDashCls))
                (seqN 4 (.cls digitCls))))))))

/-- AST of `/\b\d{3}[-.]?\d{2}[-.]?\d{4}\b/g`. -/
def ssnRegex : Regex :=
  .seq .wb
    (.seq (seqN 3 (.cls digitCls))
      (.seq (.opt false (.cls dashDotCls))
        (.seq (seqN 2 (.cls digitCls))
          (.seq (.opt false (.cls dashDotCls))
            (.seq (seqN 4 (.cls digitCls)) .wb)))))

/-- AST of `/\b(?:\d[ -]*?){13,16}\b/g` (greedy counted repetition of
a digit followed by a lazy separator star). -/
def ccRegex : Regex :=
  .seq .wb
    (.seq (repBounded false 13 16 (.seq (.cls digitCls) (.starCls true spaceDashCls)))
      .wb)

/-- The fixed default pattern set of the module (lines 4-13), with each
pattern's `toString()` display form. -/
def DEFAULT_PATTERNS : List CompiledPattern :=
  [⟨emailRegex, "/([a-zA-Z0-9_.+-]+@[a-zA-Z0-9-]+\\.[a-zA-Z0-9-.]+)/g"⟩,
   ⟨phoneRegex, "/(\\+\\d{1,3}[\\s-])?\\(?\\d{3}\\)?[\\s.-]?\\d{3}[\\s.-]?\\d{4}/g"⟩,
   ⟨ssnRegex, "/\\b\\d{3}[-.]?\\d{2}[-.]?\\d{4}\\b/g"⟩,
   ⟨ccRegex, "/\\b(?:\\d[ -]*?){13,16}\\b/g"⟩]

/-- Consume a leading lazy-marker `?` after a quantifier. -/
def takeLazyFlag : List Char → Bool × List Char
  | '?' :: rest => (true, rest)
  | cs => (false, cs)

/-- Star of a regex, available in this model only on a character
class (the only shape the module's patterns use unbounded). -/
def starOf (lz : Bool) : Regex → Option Regex
  | .cls cc => some (.starCls lz cc)
  | _ => none

/-- Split a leading run of decimal digits from the input. -/
def splitDigits : List Char → List Char × List Char
  | [] => ([], [])
  | c :: rest =>
    if '0' ≤ c && c ≤ '9' then
      let dr := splitDigits rest
      (c :: dr.1, dr.2)
    else ([], c :: rest)

def digitsVal (ds : List Char) : Nat :=
  ds.foldl (fun acc c => acc * 10 + (c.toNat - '0'.toNat)) 0

/-- Parse a `{m}` / `{m,}` / `{m,n}` counted quantifier (input starts
just after the `{`) and apply it to the preceding atom. -/
def applyQuantBraces (r : Regex) (cs : List Char) : Option (Regex × List Char) :=
  match splitDigits cs with
  | ([], _) => none
  | (ds, rest) =>
    let lo := digitsVal ds
    match rest with
    | '}' :: rest2 =>
      let lzr := takeLazyFlag rest2
      some (repBounded lzr.1 lo lo r, lzr.2)
    | ',' :: '}' :: rest2 =>
      let lzr := takeLazyFlag rest2
      (starOf lzr.1 r).map (fun st => (.seq (seqN lo r) st, lzr.2))
    | ',' :: rest2 =>
      match splitDigits rest2 with
      | ([], _) => none
      | (ds2, rest3) =>
        match rest3 with
        | '}' :: rest4 =>
          let hi := digitsVal ds2
          if lo ≤ hi then
            let lzr := takeLazyFlag rest4
            some (repBounded lzr.1 lo hi r, lzr.2)
          else none
        | _ => none
    | _ => none

/-- Apply an optional postfix quantifier (`*`, `+`, `?`, `{..}`, each
with an optional lazy `?`) to a parsed atom. -/
def applyQuant (r : Regex) : List Char → Option (Regex × List Char)
  | '*' :: rest =>
    let lzr := takeLazyFlag rest
    (starOf lzr.1 r).map (fun st => (st, lzr.2))
  | '+' :: rest =>
    let lzr := takeLazyFlag rest
    (starOf lzr.1 r).map (fun st => (.seq r st, lzr.2))
  | '?' :: rest =>
    let lzr := takeLazyFlag rest
    some (.opt lzr.1 r, lzr.2)
  | '{' :: rest => applyQuantBraces r rest
  | cs => some (r, cs)

/-- Ranges contributed by an escape inside a bracket class. -/
def classEsc (e : Char) : List (Char × Char) :=
  if e = 'd' then [('0', '9')]
  else if e = 's' then wsPairs
  else if e = 'w' then wordRanges
  else if e = 'n' then [('\n', '\n')]
  else if e = 't' then [('\t', '\t')]
  else if e = 'r' then [('\r', '\r')]
  else [(e, e)]

/-- Parse the body of a bracket class up to the closing `]`. -/
def parseClassBody : Nat → List Char → Option (List (Char × Char) × List Char)
  | 0, _ => none
  | fuel + 1, cs =>
    match cs with
    | [] => none
    | ']' :: rest => some ([], rest)
    | '\\' :: e :: rest =>
      (parseClassBody fuel rest).map (fun pr => (classEsc e ++ pr.1, pr.2))
    | '-' :: rest =>
      (parseClassBody fuel rest).map (fun pr => (('-', '-') :: pr.1, pr.2))
    | c :: '-' :: d :: rest =>
      if d = ']' then
        (parseClassBody fuel ('-' :: d :: rest)).map (fun pr => ((c, c) :: pr.1, pr.2))
      else if c ≤ d then
        (parseClassBody fuel rest).map (fun pr => ((c, d) :: pr.1, pr.2))
      else none
    | c :: rest =>
      (parseClassBody fuel rest).map (fun pr => ((c, c) :: pr.1, pr.2))

/-- `.` — any character but a line terminator. -/
def dotCls : CharClass := ⟨true, [('\n', '\n'), ('\r', '\r'), ('\u2028', '\u2028'), ('\u2029', '\u2029')]⟩

/-- A top-level escape as an atom.  Unsupported alphanumeric escapes
(backreferences, `\x..`, `\B`, …) are rejected, which this model
reports as a compilation failure. -/
def escAtom (e : Char) : Option Regex :=
  if e = 'd' then some (.cls digitCls)
  else if e = 'D' then some (.cls ⟨true, [('0', '9')]⟩)
  else if e = 's' then some (.cls wsCls)
  else if e = 'S' then some (.cls ⟨true, wsPairs⟩)
  else if e = 'w' then some (.cls wordCls)
  else if e = 'W' then some (.cls ⟨true, wordRanges⟩)
  else if e = 'b' then some .wb
  else if e = 'n' then some (litC '\n')
  else if e = 't' then some (litC '\t')
  else if e = 'r' then some (litC '\r')
  else if e.isAlphanum then none
  else some (litC e)

def isMetaChar (c : Char) : Bool :=
  c ∈ ['|', '(', ')', '[', ']', '{', '}', '*', '+', '?', '\\', '^', '$', '.']

/-- The grammar level being parsed: alternation, sequence, or a single
quantified atom. -/
inductive PMode where
  | altM
  | seqM
  | atomM

/-- Modelled from the spec: the host pattern compiler (`new RegExp(p, 'g')`,
line 36 of the module), which is JavaScript-runtime functionality, not
repository code.  A recursive-descent parser for the regex subset this
development models: literals, escapes, bracket classes, `.`, groups,
alternation, the quantifiers `* + ?` (on classes for `*`/`+`) and
`{m}`/`{m,}`/`{m,n}` with lazy variants, and `\b`.  Syntax outside the
subset (anchors, lookaround, backreferences, star of a composite) is
rejected, i.e. treated as a source that fails to compile. -/
def parseR : Nat → PMode → List Char → Option (Regex × List Char)
  | 0, _, _ => none
  | fuel + 1, .altM, cs =>
    match parseR fuel .seqM cs with
    | none => none
    | some (r, rest) =>
      match rest with
      | '|' :: rest2 =>
        match parseR fuel .altM rest2 with
        | none => none
        | some (r2, rest3) => some (.alt r r2, rest3)
      | _ => some (r, rest)
  | fuel + 1, .seqM, cs =>
    match cs with
    | [] => some (.eps, [])
    | ')' :: rest => some (.eps, ')' :: rest)
    | '|' :: rest => some (.eps, '|' :: rest)
    | _ =>
      match parseR fuel .atomM cs with
      | none => none
      | some (r, rest) =>
        match parseR fuel .seqM rest with
        | none => none
        | some (r2, rest2) => some (.seq r r2, rest2)
  | fuel + 1, .atomM, cs =>
    match cs with
    | [] => none
    | '(' :: '?' :: ':' :: rest =>
      match parseR fuel .altM rest with
      | some (r, ')' :: rest2) => applyQuant r rest2
      | _ => none
    | '(' :: '?' :: _ => none
    | '(' :: rest =>
      match parseR fuel .altM rest with
      | some (r, ')' :: rest2) => applyQuant r rest2
      | _ => none
    | '[' :: '^' :: rest =>
      match parseClassBody fuel rest with
      | none => none
      | some (ranges, rest2) => applyQuant (.cls ⟨true, ranges⟩) rest2
    | '[' :: rest =>
      match parseClassBody fuel rest with
      | none => none
      | some (ranges, rest2) => applyQuant (.cls ⟨false, ranges⟩) rest2
    | '\\' :: e :: rest =>
      match escAtom e with
      | none => none
      | some r => applyQuant r rest
    | '.' :: rest => applyQuant (.cls dotCls) rest
    | c :: rest => if isMetaChar c then none else applyQuant (litC c) rest

/-- Compile one pattern-source string with the modelled host compiler;
`none` is a compilation failure (`new RegExp` throwing). -/
def parseRegexStr (cs : List Char) : Option Regex :=
  match parseR (cs.length * 4 + 8) .altM cs with
  | some (r, []) => some r
  | _ => none

/-- JavaScript whitespace for `String.prototype.trim` (ASCII part). -/
def isJsWsChar (c : Char) : Bool := c ∈ [' ', '\t', '\n', '\r', '\x0b', '\x0c']

def trimChars (cs : List Char) : List Char :=
  ((cs.dropWhile isJsWsChar).reverse.dropWhile isJsWsChar).reverse

/-- `String.prototype.split(',')`. -/
def splitComma : List Char → List (List Char)
  | [] => [[]]
  | c :: rest =>
    let r := splitComma rest
    if c = ',' then [] :: r
    else (c :: r.headD []) :: r.tail

def isFlagChar (c : Char) : Bool := c ∈ ['g', 'i', 'm', 'u', 'y']

/-- Drop the leftmost `/flags`-to-end-of-string suffix, as the global
replace of `/^\/|\/[gimuy]*$/g` on line 35 does after the leading
slash has been handled. -/
def dropTrailingSlashFlags : List Char → List Char
  | [] => []
  | c :: rest =>
    if c = '/' && rest.all isFlagChar then []
    else c :: dropTrailingSlashFlags rest

/-- `pattern.replace(/^\/|\/[gimuy]*$/g, '')` (line 35): strip a
leading `/` and a trailing `/flags` from a pattern-literal source. -/
def stripSlashes : List Char → List Char
  | '/' :: rest => dropTrailingSlashFlags rest
  | cs => dropTrailingSlashFlags cs

/-- The `toString()` display form of a pattern compiled from a source
string (an empty source displays as `(?:)`, as in JavaScript). -/
def displayOf (src : List Char) : String :=
  String.mk ('/' :: (if src.isEmpty then "(?:)".data else src) ++ "/g".data)

/-- Compile one string source: strip pattern-literal delimiters and
flags, then compile as a global pattern (lines 34-36). -/
def compileStrSource (cs : List Char) : Option CompiledPattern :=
  let src := stripSlashes cs
  (parseRegexStr src).map (fun r => ⟨r, displayOf src⟩)

/-- One element of an array pattern spec: a string source, or an
already-compiled pattern passed through unchanged (line 33). -/
inductive PatternSource where
  | strSrc (s : String)
  | preSrc (p : CompiledPattern)
deriving DecidableEq

/-- The dynamic `customPatterns` argument of `compilePatterns`:
absent (`null`/`undefined`), a single string, an array of sources, or
a top-level already-compiled pattern object. -/
inductive PatternSpec where
  | nullSpec
  | strSpec (s : String)
  | arr (l : List PatternSource)
  | preTop (p : CompiledPattern)
deriving DecidableEq

/-- Errors a call can fail with.  `typeError` models a thrown
JavaScript `TypeError`; `invalidInput` is the `InvalidInput` error the
specification's error taxonomy names (the code never produces it). -/
inductive JSError where
  | typeError
  | invalidInput
deriving DecidableEq

/-- Compile one array element (the body of the `map` on lines 29-40):
a precompiled pattern is returned unchanged, a string is compiled, and
a failure yields `none` (dropped by the `filter(Boolean)`). -/
def compileSource : PatternSource → Option CompiledPattern
  | .preSrc p => some p
  | .strSrc s => compileStrSource s.data

/-- `compilePatterns` (lines 20-41).  `!customPatterns` is true for
`null`/`undefined` and for the empty string (falsy), so those return
the defaults; an array — even the empty array — is truthy and goes
through the map/filter pipeline; a single string is split on commas
with each piece trimmed; a top-level pattern object has no `split`
method, so the call throws a `TypeError`. -/
def compilePatterns : PatternSpec → Except JSError (List CompiledPattern)
  | .nullSpec => .ok DEFAULT_PATTERNS
  | .strSpec s =>
    if s = "" then .ok DEFAULT_PATTERNS
    else .ok ((((splitComma s.data).map (fun p => trimChars p)).map
        (fun p => compileStrSource p)).reduceOption)
  | .arr l => .ok ((l.map compileSource).reduceOption)
  | .preTop _ => .error .typeError

/-- One entry of `identifySensitiveText`'s result: the matched text,
its 0-based offset and length in the scanned content, and the source
pattern's display form (lines 56-61). -/
structure SMatch where
  text : String
  index : Nat
  length : Nat
  pattern : String
deriving DecidableEq

/-- The `{matches, count}` object `identifySensitiveText` returns. -/
structure ScanResult where
  «matches» : List SMatch
  count : Nat
deriving DecidableEq

/-- All matches of one compiled pattern in `c`, as produced by the
`exec` loop of lines 54-62 (fuel `c.length + 1` is exactly enough for
any terminating run; `none` models the loop never finishing). -/
def matchesOfPattern (c : List Char) (p : CompiledPattern) : Option (List SMatch) :=
  (scanPattern (c.length + 1) p.re c 0).map
    (List.map fun il => ⟨String.mk ((c.drop il.1).take il.2), il.1, il.2, p.display⟩)

/-- The `forEach` over compiled patterns of lines 53-63, appending each
pattern's matches in pattern order. -/
def scanAll (c : List Char) : List CompiledPattern → Option (List SMatch)
  | [] => some []
  | p :: ps =>
    match matchesOfPattern c p with
    | none => none
    | some ms => (scanAll c ps).map (fun rest => ms ++ rest)

/-- `identifySensitiveText` on already-compiled patterns. -/
def identifyList (c : List Char) (ps : List CompiledPattern) : Option ScanResult :=
  (scanAll c ps).map (fun ms => ⟨ms, ms.length⟩)

/-- `previewSensitiveContent`'s buffer rewriting (lines 81-87): each
pattern's global replace is applied to the buffer produced by the
previous patterns. -/
def previewList (c : List Char) : List CompiledPattern → Option (List Char)
  | [] => some c
  | p :: ps => (replaceAll wrapMark p.re c).bind (fun c' => previewList c' ps)

/-- `redactSensitiveContent`'s buffer rewriting (lines 107-112). -/
def redactList (c : List Char) : List CompiledPattern → Option (List Char)
  | [] => some c
  | p :: ps => (replaceAll (fun _ => redactionToken) p.re c).bind (fun c' => redactList c' ps)

/-- `identifySensitiveText` (lines 49-69) on a string content. -/
def identifySensitiveText (content : String) (patterns : PatternSpec) :
    Except JSError (Option ScanResult) :=
  (compilePatterns patterns).map (fun ps => identifyList content.data ps)

/-- `previewSensitiveContent` (lines 77-89) on a string content. -/
def previewSensitiveContent (content : String) (patterns : PatternSpec) :
    Except JSError (Option String) :=
  (compilePatterns patterns).map (fun ps => (previewList content.data ps).map String.mk)

/-- `redactSensitiveContent` (lines 97-115) on a string content. -/
def redactSensitiveContent (content : String) (patterns : PatternSpec) :
    Except JSError (Option String) :=
  (compilePatterns patterns).map (fun ps => (redactList content.data ps).map String.mk)

/-- JavaScript primitive values a caller may pass as `content`. -/
inductive JSVal where
  | str (s : String)
  | num (n : Nat)
  | boolV (b : Bool)
  | nullV
  | undef
deriving DecidableEq

def JSVal.isStr : JSVal → Bool
  | .str _ => true
  | _ => false

/-- JavaScript `ToString` on the modelled primitives. -/
def jsToString : JSVal → String
  | .str s => s
  | .num n => toString n
  | .boolV true => "true"
  | .boolV false => "false"
  | .nullV => "null"
  | .undef => "undefined"

/-- `identifySensitiveText` on an arbitrary primitive content value:
`pattern.exec(content)` coerces its argument with `ToString`, so the
call performs no type check and scans the coerced string. -/
def identifySensitiveTextJS (content : JSVal) (patterns : PatternSpec) :
    Except JSError (Option ScanResult) :=
  identifySensitiveText (jsToString content) patterns

/-- `previewSensitiveContent` on an arbitrary primitive content value:
with a nonempty compiled pattern list the first
`previewContent.replace(...)` throws a `TypeError` on a non-string
(primitives other than strings have no `replace` method); with an
empty compiled list no replace runs and the value is returned as
is. -/
def previewSensitiveContentJS (content : JSVal) (patterns : PatternSpec) :
    Except JSError (Option JSVal) :=
  match compilePatterns patterns with
  | .error e => .error e
  | .ok [] => .ok (some content)
  | .ok ps =>
    match content with
    | .str s => .ok ((previewList s.data ps).map (fun l => .str (String.mk l)))
    | _ => .error .typeError

/-- `redactSensitiveContent` on an arbitrary primitive content value:
`console.log('Original content length:', content.length)` (line 99)
throws a `TypeError` for `null`/`undefined` before anything else; for
other non-strings the first `redactedContent.match(...)` throws; with
an empty compiled list and a non-nullish value nothing throws and the
value is returned as is. -/
def redactSensitiveContentJS (content : JSVal) (patterns : PatternSpec) :
    Except JSError (Option JSVal) :=
  match content with
  | .nullV => .error .typeError
  | .undef => .error .typeError
  | .str s =>
    (compilePatterns patterns).map
      (fun ps => (redactList s.data ps).map (fun l => .str (String.mk l)))
  | _ =>
    match compilePatterns patterns with
    | .error e => .error e
    | .ok [] => .ok (some content)
    | .ok _ => .error .typeError

theorem orElse_eq_some_cases {α : Type} {a b : Option α} {x : α}
    (h : (a <|> b) = some x) : a = some x ∨ (a = none ∧ b = some x) := by
  cases a with
  | none => right; exact ⟨rfl, by simpa using h⟩
  | some v => left; simpa using h

/-- Whatever `starClsM` matches, the continuation is invoked on a
suffix of the input. -/
theorem starClsM_suffix {lz : Bool} {cc : CharClass} :
    ∀ (rest : List Char) (prev : Option Char)
      (k : Option Char → List Char → Option (List Char)) (out : List Char),
      starClsM lz cc prev rest k = some out →
      ∃ p' rest', rest' <:+ rest ∧ k p' rest' = some out := by
  intro rest
  induction rest with
  | nil =>
    intro prev k out h
    exact ⟨prev, [], List.suffix_refl [], by simpa [starClsM] using h⟩
  | cons c rest' ih =>
    intro prev k out h
    by_cases hm : cc.mem c = true
    · have hstep : ∀ hrec : starClsM lz cc (some c) rest' k = some out,
          ∃ p' rest'', rest'' <:+ c :: rest' ∧ k p' rest'' = some out := by
        intro hrec
        obtain ⟨p', rest'', hs, hk⟩ := ih (some c) k out hrec
        exact ⟨p', rest'', hs.trans (List.suffix_cons c rest'), hk⟩
      cases lz with
      | true =>
        simp only [starClsM, hm, if_true] at h
        rcases orElse_eq_some_cases h with hk | ⟨_, hrec⟩
        · exact ⟨prev, c :: rest', List.suffix_refl _, hk⟩
        · exact hstep hrec
      | false =>
        simp only [starClsM, hm, if_true, Bool.false_eq_true, if_false] at h
        rcases orElse_eq_some_cases h with hrec | ⟨_, hk⟩
        · exact hstep hrec
        · exact ⟨prev, c :: rest', List.suffix_refl _, hk⟩
    · simp only [starClsM, hm, if_false] at h
      exact ⟨prev, c :: rest', List.suffix_refl _, h⟩

/-- Whatever `matchR` matches, the continuation is invoked on a suffix
of the input. -/
theorem matchR_suffix (r : Regex) :
    ∀ (prev : Option Char) (rest : List Char)
      (k : Option Char → List Char → Option (List Char)) (out : List Char),
      matchR r prev rest k = some out →
      ∃ p' rest', rest' <:+ rest ∧ k p' rest' = some out := by
  induction r with
  | eps =>
    intro prev rest k out h
    exact ⟨prev, rest, List.suffix_refl _, h⟩
  | cls cc =>
    intro prev rest k out h
    match rest with
    | [] => exact absurd h (by simp [matchR])
    | c :: rest' =>
      by_cases hm : cc.mem c = true
      · simp only [matchR, hm, if_true] at h
        exact ⟨some c, rest', List.suffix_cons c rest', h⟩
      · simp [matchR, hm] at h
  | seq r₁ r₂ ih₁ ih₂ =>
    intro prev rest k out h
    obtain ⟨p1, rest1, hs1, h1⟩ := ih₁ prev rest _ out h
    obtain ⟨p2, rest2, hs2, h2⟩ := ih₂ p1 rest1 k out h1
    exact ⟨p2, rest2, hs2.trans hs1, h2⟩
  | alt r₁ r₂ ih₁ ih₂ =>
    intro prev rest k out h
    rcases orElse_eq_some_cases h with h1 | ⟨_, h2⟩
    · exact ih₁ prev rest k out h1
    · exact ih₂ prev rest k out h2
  | opt lz r ih =>
    intro prev rest k out h
    cases lz with
    | true =>
      simp only [matchR, if_true] at h
      rcases orElse_eq_some_cases h with hk | ⟨_, hr⟩
      · exact ⟨prev, rest, List.suffix_refl _, hk⟩
      · exact ih prev rest k out hr
    | false =>
      simp only [matchR, Bool.false_eq_true, if_false] at h
      rcases orElse_eq_some_cases h with hr | ⟨_, hk⟩
      · exact ih prev rest k out hr
      · exact ⟨prev, rest, List.suffix_refl _, hk⟩
  | starCls lz cc =>
    intro prev rest k out h
    exact starClsM_suffix rest prev k out h
  | wb =>
    intro prev rest k out h
    by_cases hb : atBoundary prev rest = true
    · simp only [matchR, hb, if_true] at h
      exact ⟨prev, rest, List.suffix_refl _, h⟩
    · simp [matchR, hb] at h

/-- On a pattern that cannot match the empty string, `matchR` hands the
continuation a strictly shorter suffix. -/
theorem matchR_consume (r : Regex) :
    ∀ (prev : Option Char) (rest : List Char)
      (k : Option Char → List Char → Option (List Char)) (out : List Char),
      nonNullable r = true → matchR r prev rest k = some out →
      ∃ p' rest', rest' <:+ rest ∧ rest'.length < rest.length ∧ k p' rest' = some out := by
  induction r with
  | eps => intro _ _ _ _ hnn; simp [nonNullable] at hnn
  | cls cc =>
    intro prev rest k out _ h
    match rest with
    | [] => exact absurd h (by simp [matchR])
    | c :: rest' =>
      by_cases hm : cc.mem c = true
      · simp only [matchR, hm, if_true] at h
        exact ⟨some c, rest', List.suffix_cons c rest', by simp, h⟩
      · simp [matchR, hm] at h
  | seq r₁ r₂ ih₁ ih₂ =>
    intro prev rest k out hnn h
    simp only [nonNullable, Bool.or_eq_true] at hnn
    rcases hnn with hnn1 | hnn2
    · obtain ⟨p1, rest1, hs1, hl1, h1⟩ := ih₁ prev rest _ out hnn1 h
      obtain ⟨p2, rest2, hs2, h2⟩ := matchR_suffix r₂ p1 rest1 k out h1
      exact ⟨p2, rest2, hs2.trans hs1,
        Nat.lt_of_le_of_lt hs2.length_le hl1, h2⟩
    · obtain ⟨p1, rest1, hs1, h1⟩ := matchR_suffix r₁ prev rest _ out h
      obtain ⟨p2, rest2, hs2, hl2, h2⟩ := ih₂ p1 rest1 k out hnn2 h1
      exact ⟨p2, rest2, hs2.trans hs1,
        Nat.lt_of_lt_of_le hl2 hs1.length_le, h2⟩
  | alt r₁ r₂ ih₁ ih₂ =>
    intro prev rest k out hnn h
    simp only [nonNullable, Bool.and_eq_true] at hnn
    rcases orElse_eq_some_cases h with h1 | ⟨_, h2⟩
    · exact ih₁ prev rest k out hnn.1 h1
    · exact ih₂ prev rest k out hnn.2 h2
  | opt lz r _ => intro _ _ _ _ hnn; simp [nonNullable] at hnn
  | starCls lz cc => intro _ _ _ _ hnn; simp [nonNullable] at hnn
  | wb => intro _ _ _ _ hnn; simp [nonNullable] at hnn

/-- A match length never exceeds the remaining input. -/
theorem matchAt_le {r : Regex} {s : List Char} {i len : Nat}
    (h : matchAt r s i = some len) : len ≤ s.length - i := by
  unfold matchAt at h
  cases hm : matchR r (prevCharAt s i) (s.drop i) (fun _ rest' => some rest') with
  | none => rw [hm] at h; cases h
  | some rest' =>
    rw [hm] at h
    injection h with h'
    obtain ⟨p', rest'', hs, hk⟩ := matchR_suffix r _ _ _ _ hm
    injection hk with hk'
    subst hk'
    have hsl := hs.length_le
    simp only [List.length_drop] at hsl h' ⊢
    omega

/-- On a pattern that cannot match empty, every match is nonempty. -/
theorem matchAt_pos {r : Regex} {s : List Char} {i len : Nat}
    (hnn : nonNullable r = true) (h : matchAt r s i = some len) : 1 ≤ len := by
  unfold matchAt at h
  cases hm : matchR r (prevCharAt s i) (s.drop i) (fun _ rest' => some rest') with
  | none => rw [hm] at h; cases h
  | some rest' =>
    rw [hm] at h
    injection h with h'
    obtain ⟨p', rest'', hs, hl, hk⟩ := matchR_consume r _ _ _ _ hnn hm
    injection hk with hk'
    subst hk'
    omega

theorem execFindAux_sound {r : Regex} {s : List Char} :
    ∀ (k li i len : Nat), execFindAux r s k li = some (i, len) →
      li ≤ i ∧ i < li + k ∧ matchAt r s i = some len := by
  intro k
  induction k with
  | zero => intro li i len h; cases h
  | succ k ih =>
    intro li i len h
    unfold execFindAux at h
    cases hm : matchAt r s li with
    | some l0 =>
      simp only [execFindAux, hm] at h
      injection h with h'
      injection h' with hi hlen
      subst hi; subst hlen
      exact ⟨Nat.le_refl _, by omega, hm⟩
    | none =>
      simp only [execFindAux, hm] at h
      obtain ⟨h1, h2, h3⟩ := ih (li + 1) i len h
      exact ⟨by omega, by omega, h3⟩

theorem execFind_sound {r : Regex} {s : List Char} {li i len : Nat}
    (h : execFind r s li = some (i, len)) :
    li ≤ i ∧ i + len ≤ s.length ∧ matchAt r s i = some len := by
  unfold execFind at h
  obtain ⟨h1, h2, h3⟩ := execFindAux_sound _ li i len h
  have hle : len ≤ s.length - i := matchAt_le h3
  have hi : i ≤ s.length := by
    by_cases hls : li ≤ s.length
    · omega
    · exfalso
      have h0 : s.length + 1 - li = 0 := by omega
      rw [h0] at h
      cases h
  exact ⟨h1, by omega, h3⟩

/-- A successful try exactly at the search position is returned as is. -/
theorem execFind_hit {r : Regex} {s : List Char} {li len : Nat}
    (hle : li ≤ s.length) (hm : matchAt r s li = some len) :
    execFind r s li = some (li, len) := by
  unfold execFind
  have h1 : s.length + 1 - li = (s.length - li) + 1 := by omega
  rw [h1]
  unfold execFindAux
  rw [hm]

/-- The scan loop of `identifySensitiveText` never finishes once it
reaches an empty match: `exec` leaves `lastIndex` unchanged there, so
the same empty match is found forever. -/
theorem scan_div {r : Regex} {s : List Char} {i : Nat}
    (hle : i ≤ s.length) (hm : matchAt r s i = some 0) :
    ∀ fuel, scanPattern fuel r s i = none := by
  intro fuel
  induction fuel with
  | zero => rfl
  | succ fuel ih =>
    have hex : execFind r s i = some (i, 0) := execFind_hit hle hm
    simp [scanPattern, hex, ih]

/-- Any terminating scan is a proper global-scan chain: matches are
listed position-ascending, each is nonempty, and each successive match
starts at or after the previous match's end. -/
theorem scan_chain {r : Regex} {s : List Char} :
    ∀ (fuel li : Nat) (ms : List (Nat × Nat)),
      scanPattern fuel r s li = some ms → chainFrom li ms = true := by
  intro fuel
  induction fuel with
  | zero => intro li ms h; cases h
  | succ fuel ih =>
    intro li ms h
    cases hex : execFind r s li with
    | none =>
      simp only [scanPattern, hex, Option.some.injEq] at h
      subst h
      rfl
    | some il =>
      obtain ⟨i, len⟩ := il
      simp only [scanPattern, hex] at h
      cases hs : scanPattern fuel r s (i + len) with
      | none => rw [hs] at h; cases h
      | some ms' =>
        rw [hs] at h
        simp only [Option.map_some', Option.some.injEq] at h
        subst h
        obtain ⟨h1, h2, h3⟩ := execFind_sound hex
        have hlen : 1 ≤ len := by
          by_contra hl
          have h0 : len = 0 := by omega
          subst h0
          have hd := scan_div (by omega) h3 fuel
          rw [Nat.add_zero] at hs
          rw [hd] at hs
          cases hs
        have hc := ih (i + len) ms' hs
        simp only [chainFrom, Bool.and_eq_true, decide_eq_true_eq]
        exact ⟨⟨h1, hlen⟩, hc⟩

/-- On a pattern that cannot match empty, the scan position strictly
advances, so fuel `s.length + 1` always suffices. -/
theorem scan_total {r : Regex} {s : List Char} (hnn : nonNullable r = true) :
    ∀ (fuel li : Nat), li ≤ s.length → s.length + 1 - li ≤ fuel →
      (scanPattern fuel r s li).isSome = true := by
  intro fuel
  induction fuel with
  | zero => intro li h1 h2; omega
  | succ fuel ih =>
    intro li h1 h2
    cases hex : execFind r s li with
    | none => simp [scanPattern, hex]
    | some il =>
      obtain ⟨i, len⟩ := il
      obtain ⟨ha, hb, hc⟩ := execFind_sound hex
      have hlen : 1 ≤ len := matchAt_pos hnn hc
      have hrec := ih (i + len) (by omega) (by omega)
      cases hs : scanPattern fuel r s (i + len) with
      | none => rw [hs] at hrec; cases hrec
      | some ms' => simp [scanPattern, hex, hs]

/-- A global-replace pass renders exactly its gap/match decomposition. -/
theorem replaceFuel_eq_render (repl : List Char → List Char) (r : Regex) (s : List Char) :
    ∀ (fuel pos li : Nat), replaceFuel repl r s fuel pos li =
      (segmentsFuel r s fuel pos li).map (renderSegs repl) := by
  intro fuel
  induction fuel with
  | zero => intro pos li; rfl
  | succ fuel ih =>
    intro pos li
    cases hex : execFind r s li with
    | none => simp [replaceFuel, segmentsFuel, hex, renderSegs]
    | some il =>
      obtain ⟨i, len⟩ := il
      simp only [replaceFuel, segmentsFuel, hex, ih]
      cases segmentsFuel r s fuel (i + len) (if len = 0 then i + 1 else i + len) with
      | none => rfl
      | some st => simp [renderSegs, List.append_assoc]

/-- The gaps and matches of a replace pass reassemble the scanned
input: gaps are untouched content and matches are content substrings. -/
theorem segmentsFuel_reconstruct (r : Regex) (s : List Char) :
    ∀ (fuel pos li : Nat) (segs : List (List Char × List Char)) (trail : List Char),
      pos ≤ li →
      segmentsFuel r s fuel pos li = some (segs, trail) →
      (segs.map fun gm => gm.1 ++ gm.2).flatten ++ trail = s.drop pos := by
  intro fuel
  induction fuel with
  | zero => intro pos li segs trail _ h; cases h
  | succ fuel ih =>
    intro pos li segs trail hpl h
    cases hex : execFind r s li with
    | none =>
      simp only [segmentsFuel, hex, Option.some.injEq, Prod.mk.injEq] at h
      obtain ⟨h1, h2⟩ := h
      subst h1; subst h2
      simp
    | some il =>
      obtain ⟨i, len⟩ := il
      simp only [segmentsFuel, hex] at h
      cases hs : segmentsFuel r s fuel (i + len) (if len = 0 then i + 1 else i + len) with
      | none => rw [hs] at h; cases h
      | some st =>
        obtain ⟨segs', trail'⟩ := st
        rw [hs] at h
        simp only [Option.map_some', Option.some.injEq, Prod.mk.injEq] at h
        obtain ⟨h1, h2⟩ := h
        subst h1; subst h2
        obtain ⟨hli, hil, _⟩ := execFind_sound hex
        have hrec := ih (i + len) (if len = 0 then i + 1 else i + len) segs' trail'
          (by split <;> omega) hs
        simp only [List.map_cons, List.flatten_cons, List.append_assoc]
        rw [hrec]
        have e1 : (s.drop i).take len ++ s.drop (i + len) = s.drop i := by
          have e := List.take_append_drop len (s.drop i)
          rw [List.drop_drop] at e
          exact e
        have e2 : (s.drop pos).take (i - pos) ++ s.drop i = s.drop pos := by
          have e := List.take_append_drop (i - pos) (s.drop pos)
          rw [List.drop_drop] at e
          have hip : pos + (i - pos) = i := by omega
          rw [hip] at e
          exact e
        rw [e1, e2]

/-- The search position of a replace pass strictly advances, so fuel
`s.length + 2` always suffices. -/
theorem segmentsFuel_total (r : Regex) (s : List Char) :
    ∀ (fuel pos li : Nat), li ≤ s.length + 1 → s.length + 2 - li ≤ fuel →
      (segmentsFuel r s fuel pos li).isSome = true := by
  intro fuel
  induction fuel with
  | zero => intro pos li h1 h2; omega
  | succ fuel ih =>
    intro pos li h1 h2
    cases hex : execFind r s li with
    | none => simp [segmentsFuel, hex]
    | some il =>
      obtain ⟨i, len⟩ := il
      obtain ⟨hli, hil, _⟩ := execFind_sound hex
      have hrec := ih (i + len) (if len = 0 then i + 1 else i + len)
        (by split <;> omega) (by split <;> omega)
      cases hs : segmentsFuel r s fuel (i + len) (if len = 0 then i + 1 else i + len) with
      | none => rw [hs] at hrec; cases hrec
      | some st => simp [segmentsFuel, hex, hs]

/-- With no match anywhere, a replace pass returns the buffer
unchanged. -/
theorem replaceAll_no_match (repl : List Char → List Char) (r : Regex) (s : List Char)
    (h : execFind r s 0 = none) : replaceAll repl r s = some s := by
  show replaceFuel repl r s (s.length + 2) 0 0 = some s
  have hstep : s.length + 2 = (s.length + 1) + 1 := rfl
  rw [hstep]
  simp [replaceFuel, h]

/-- Stateful variant of the scan loop: the returned `Nat` is the
pattern object's `lastIndex` field after the loop — set to the match
end after each successful `exec` and reset to 0 by the final failing
`exec`.  On fuel exhaustion (a loop that never finishes) the value is
the current `lastIndex`, which a JavaScript caller can never observe. -/
def scanPatternS : Nat → Regex → List Char → Nat → Option (List (Nat × Nat)) × Nat
  | 0, _, _, li => (none, li)
  | fuel + 1, r, s, li =>
    match execFind r s li with
    | none => (some [], 0)
    | some (i, len) =>
      match scanPatternS fuel r s (i + len) with
      | (none, li') => (none, li')
      | (some ms, li') => (some ((i, len) :: ms), li')

/-- A terminating scan computes the pure scan result and leaves
`lastIndex = 0`, whatever position it started from. -/
theorem scanPatternS_eq (r : Regex) (s : List Char) :
    ∀ (fuel li : Nat) (ms : List (Nat × Nat)),
      scanPattern fuel r s li = some ms → scanPatternS fuel r s li = (some ms, 0) := by
  intro fuel
  induction fuel with
  | zero => intro li ms h; cases h
  | succ fuel ih =>
    intro li ms h
    cases hex : execFind r s li with
    | none =>
      simp only [scanPattern, hex, Option.some.injEq] at h
      subst h
      simp [scanPatternS, hex]
    | some il =>
      obtain ⟨i, len⟩ := il
      simp only [scanPattern, hex] at h
      cases hs : scanPattern fuel r s (i + len) with
      | none => rw [hs] at h; cases h
      | some ms' =>
        rw [hs] at h
        simp only [Option.map_some', Option.some.injEq] at h
        subst h
        simp [scanPatternS, hex, ih (i + len) ms' hs]

/-- Stateful variant of `identifySensitiveText`'s pattern loop over the
shared default pattern objects: `st` is the list of their `lastIndex`
fields, threaded through the per-pattern scans. -/
def scanAllS (c : List Char) : List CompiledPattern → List Nat → Option (List SMatch) × List Nat
  | [], _ => (some [], [])
  | p :: ps, st =>
    match scanPatternS (c.length + 1) p.re c (st.headD 0) with
    | (none, li') => (none, li' :: st.tail)
    | (some pairs, li') =>
      match scanAllS c ps st.tail with
      | (none, st') => (none, li' :: st')
      | (some rest, st') =>
        (some ((pairs.map fun il =>
          (⟨String.mk ((c.drop il.1).take il.2), il.1, il.2, p.display⟩ : SMatch)) ++ rest),
         li' :: st')

/-- A terminating stateful scan from all-zero `lastIndex` states
computes the pure result and leaves every `lastIndex` at 0. -/
theorem scanAllS_eq (c : List Char) :
    ∀ (ps : List CompiledPattern) (ms : List SMatch),
      scanAll c ps = some ms →
      scanAllS c ps (ps.map fun _ => 0) = (some ms, ps.map fun _ => 0) := by
  intro ps
  induction ps with
  | nil =>
    intro ms h
    simp only [scanAll, Option.some.injEq] at h
    subst h
    rfl
  | cons p ps ih =>
    intro ms h
    unfold scanAll at h
    cases hm : matchesOfPattern c p with
    | none => rw [hm] at h; cases h
    | some msp =>
      rw [hm] at h
      cases hs : scanAll c ps with
      | none => rw [hs] at h; cases h
      | some rest =>
        rw [hs] at h
        simp only [Option.map_some', Option.some.injEq] at h
        subst h
        unfold matchesOfPattern at hm
        cases hp : scanPattern (c.length + 1) p.re c 0 with
        | none => rw [hp] at hm; cases hm
        | some pairs =>
          rw [hp] at hm
          simp only [Option.map_some', Option.some.injEq] at hm
          subst hm
          have hps := scanPatternS_eq p.re c (c.length + 1) 0 pairs hp
          have hrec := ih rest hs
          simp only [scanAllS, List.map_cons, List.headD_cons, List.tail_cons, hps, hrec]

/-- One public call of the module, with its arguments. -/
inductive Op where
  | idOp (content : String) (patterns : PatternSpec)
  | prevOp (content : String) (patterns : PatternSpec)
  | redOp (content : String) (patterns : PatternSpec)

instance {α β : Type} [DecidableEq α] [DecidableEq β] : DecidableEq (Except α β) := fun a b =>
  match a, b with
  | .error x, .error y =>
    if h : x = y then .isTrue (by rw [h]) else .isFalse (fun hh => by cases hh; exact h rfl)
  | .error _, .ok _ => .isFalse (fun hh => by cases hh)
  | .ok _, .error _ => .isFalse (fun hh => by cases hh)
  | .ok x, .ok y =>
    if h : x = y then .isTrue (by rw [h]) else .isFalse (fun hh => by cases hh; exact h rfl)

/-- The observable outcome of one call. -/
inductive OutV where
  | scanOut (r : Except JSError (Option ScanResult))
  | textOut (r : Except JSError (Option String))
deriving DecidableEq

/-- The pure (argument-only) meaning of one call. -/
def pureOp : Op → OutV
  | .idOp c patterns => .scanOut (identifySensitiveText c patterns)
  | .prevOp c patterns => .textOut (previewSensitiveContent c patterns)
  | .redOp c patterns => .textOut (redactSensitiveContent c patterns)

/-- Whether an outcome corresponds to a call that actually returned
(an exception also returns control); `.ok none` is a call whose scan
loop never finishes. -/
def completedOut : OutV → Bool
  | .scanOut (.ok none) => false
  | .textOut (.ok none) => false
  | _ => true

/-- The `lastIndex` states of the four shared `DEFAULT_PATTERNS`
objects, all zero — their state at program start. -/
def zeroState : List Nat := DEFAULT_PATTERNS.map fun _ => 0

/-- One call against the shared default-pattern state.  Only
`identifySensitiveText` with the default patterns reads the state (its
`exec` loop starts from each object's current `lastIndex`);
`match`/`replace` with a global regex reset `lastIndex` to 0 before
scanning and leave it 0, and a custom spec compiles fresh pattern
objects, leaving the shared state untouched. -/
def stepOp : Op → List Nat → OutV × List Nat
  | .idOp c .nullSpec, st =>
    match scanAllS c.data DEFAULT_PATTERNS st with
    | (res, st') => (.scanOut (.ok (res.map fun ms => ⟨ms, ms.length⟩)), st')
  | .idOp c patterns, st => (.scanOut (identifySensitiveText c patterns), st)
  | .prevOp c .nullSpec, _ => (.textOut (previewSensitiveContent c .nullSpec), zeroState)
  | .prevOp c patterns, st => (.textOut (previewSensitiveContent c patterns), st)
  | .redOp c .nullSpec, _ => (.textOut (redactSensitiveContent c .nullSpec), zeroState)
  | .redOp c patterns, st => (.textOut (redactSensitiveContent c patterns), st)

/-- Run a sequence of calls, threading the shared default-pattern
state, collecting each call's outcome. -/
def runOps : List Op → List Nat → List OutV × List Nat
  | [], st => ([], st)
  | op :: ops, st =>
    match stepOp op st with
    | (out, st') =>
      match runOps ops st' with
      | (outs, st'') => (out :: outs, st'')

/-- From the all-zero shared state, a completed call returns its pure
value and leaves the shared state all-zero. -/
theorem stepOp_zero (op : Op) (h : completedOut (pureOp op) = true) :
    stepOp op zeroState = (pureOp op, zeroState) := by
  cases op with
  | idOp c patterns =>
    cases patterns with
    | nullSpec =>
      cases hsc : scanAll c.data DEFAULT_PATTERNS with
      | none =>
        exfalso
        simp [pureOp, identifySensitiveText, compilePatterns, identifyList, hsc,
          completedOut, Except.map] at h
      | some ms =>
        have hse := scanAllS_eq c.data DEFAULT_PATTERNS ms hsc
        have hz : zeroState = DEFAULT_PATTERNS.map (fun _ => 0) := rfl
        rw [hz]
        simp only [stepOp, hse]
        simp [pureOp, identifySensitiveText, compilePatterns, identifyList, hsc, Except.map]
    | strSpec s => rfl
    | arr l => rfl
    | preTop p => rfl
  | prevOp c patterns => cases patterns <;> rfl
  | redOp c patterns => cases patterns <;> rfl

/-- From program start, every call in a sequence of completed calls
returns the pure function of its own arguments, and the shared state
is all-zero after every prefix. -/
theorem runOps_pure :
    ∀ (ops : List Op), (∀ op ∈ ops, completedOut (pureOp op) = true) →
      runOps ops zeroState = (ops.map pureOp, zeroState) := by
  intro ops
  induction ops with
  | nil => intro _; rfl
  | cons op ops ih =>
    intro h
    have h1 := h op (by simp)
    have h2 : ∀ o ∈ ops, completedOut (pureOp o) = true := fun o ho => h o (by simp [ho])
    simp only [runOps, stepOp_zero op h1, ih h2, List.map_cons]

theorem reduceOption_all_none {α : Type} :
    ∀ (l : List (Option α)), (∀ x ∈ l, x = none) → l.reduceOption = [] := by
  intro l
  induction l with
  | nil => intro _; rfl
  | cons a l ih =>
    intro h
    have ha := h a (by simp)
    subst ha
    rw [List.reduceOption_cons_of_none]
    exact ih (fun x hx => h x (by simp [hx]))

/-- A terminating multi-pattern scan splits into one match list per
pattern, in pattern order. -/
theorem scanAll_structure (c : List Char) :
    ∀ (ps : List CompiledPattern) (ms : List SMatch), scanAll c ps = some ms →
      ∃ ls : List (List SMatch),
        List.Forall₂ (fun p l => matchesOfPattern c p = some l) ps ls ∧ ms = ls.flatten := by
  intro ps
  induction ps with
  | nil =>
    intro ms h
    simp only [scanAll, Option.some.injEq] at h
    subst h
    exact ⟨[], List.Forall₂.nil, rfl⟩
  | cons p ps ih =>
    intro ms h
    unfold scanAll at h
    cases hm : matchesOfPattern c p with
    | none => rw [hm] at h; cases h
    | some msp =>
      rw [hm] at h
      cases hs : scanAll c ps with
      | none => rw [hs] at h; cases h
      | some rest =>
        rw [hs] at h
        simp only [Option.map_some', Option.some.injEq] at h
        subst h
        obtain ⟨ls, hf, hfl⟩ := ih rest hs
        exact ⟨msp :: ls, List.Forall₂.cons hm hf, by simp [hfl]⟩

theorem map_index_length (c : List Char) (d : String) :
    ∀ (t : List (Nat × Nat)),
      ((t.map fun il =>
          (⟨String.mk ((c.drop il.1).take il.2), il.1, il.2, d⟩ : SMatch)).map
        (fun m => (m.index, m.length))) = t := by
  intro t
  induction t with
  | nil => rfl
  | cons a t iht => simp only [List.map_cons, iht, Prod.mk.eta]

/-- Each pattern's match list is an ascending non-overlapping chain of
nonempty matches, and each match's text is the content substring at
its reported offset and length. -/
theorem matchesOfPattern_sound (c : List Char) (p : CompiledPattern) (l : List SMatch)
    (h : matchesOfPattern c p = some l) :
    chainFrom 0 (l.map fun m => (m.index, m.length)) = true ∧
      ∀ m ∈ l, m.text = String.mk ((c.drop m.index).take m.length) := by
  unfold matchesOfPattern at h
  cases hp : scanPattern (c.length + 1) p.re c 0 with
  | none => rw [hp] at h; cases h
  | some pairs =>
    rw [hp] at h
    simp only [Option.map_some', Option.some.injEq] at h
    subst h
    constructor
    · have hc := scan_chain (c.length + 1) 0 pairs hp
      rw [map_index_length]
      exact hc
    · intro m hm
      obtain ⟨il, _, hm2⟩ := List.mem_map.mp hm
      subst hm2
      rfl

/-- On patterns that cannot match empty, no pattern's scan loop runs
out of fuel `c.length + 1`. -/
theorem scanAll_total (c : List Char) :
    ∀ (ps : List CompiledPattern), (∀ p ∈ ps, nonNullable p.re = true) →
      (scanAll c ps).isSome = true := by
  intro ps
  induction ps with
  | nil => intro _; rfl
  | cons p ps ih =>
    intro h
    have h1 : nonNullable p.re = true := h p (by simp)
    have hsc := scan_total (s := c) h1 (c.length + 1) 0 (Nat.zero_le _) (by omega)
    cases hp : scanPattern (c.length + 1) p.re c 0 with
    | none => rw [hp] at hsc; cases hsc
    | some pairs =>
      have h2 := ih (fun q hq => h q (by simp [hq]))
      cases hs : scanAll c ps with
      | none => rw [hs] at h2; cases h2
      | some rest => simp [scanAll, matchesOfPattern, hp, hs]

theorem redactList_no_match (c : List Char) :
    ∀ (ps : List CompiledPattern), (∀ p ∈ ps, execFind p.re c 0 = none) →
      redactList c ps = some c := by
  intro ps
  induction ps with
  | nil => intro _; rfl
  | cons p ps ih =>
    intro h
    have h1 := replaceAll_no_match (fun _ => redactionToken) p.re c (h p (by simp))
    have h2 := ih (fun q hq => h q (by simp [hq]))
    simp [redactList, h1, h2]

/-- Whether `needle` occurs at the head of `hay`. -/
def segAt : List Char → List Char → Bool
  | [], _ => true
  | _ :: _, [] => false
  | a :: n', b :: h' => decide (a = b) && segAt n' h'

/-- Whether `needle` occurs contiguously anywhere in `hay`. -/
def containsSeg (needle : List Char) : List Char → Bool
  | [] => needle.isEmpty
  | c :: t => segAt needle (c :: t) || containsSeg needle t

/-- Whether a preview run succeeds and its output contains `needle`
as a contiguous segment. -/
def previewContains (content : String) (patterns : PatternSpec) (needle : List Char) :
    Option Bool :=
  match previewSensitiveContent content patterns with
  | .ok (some out) => some (containsSeg needle out.data)
  | _ => none

theorem forall₂_exists_left {α β : Type} {R : α → β → Prop} :
    ∀ {l1 : List α} {l2 : List β}, List.Forall₂ R l1 l2 →
      ∀ b ∈ l2, ∃ a, a ∈ l1 ∧ R a b := by
  intro l1 l2 h
  induction h with
  | nil => intro b hb; cases hb
  | @cons a b t1 t2 hr _ ih =>
    intro b' hb
    rcases List.mem_cons.mp hb with hb1 | hb2
    · exact ⟨a, by simp, hb1 ▸ hr⟩
    · obtain ⟨a', ha, hra⟩ := ih b' hb2
      exact ⟨a', by simp [ha], hra⟩

/-- C1: for the input string "Contact me at a@b.com or 555-123-4567"
with no pattern spec (so the default pattern set is used), `identify`
returns exactly 2 matches — first the email pattern's "a@b.com", then
the phone pattern's "555-123-4567" — and `redact` on the same input
returns exactly "Contact me at [REDACTED] or [REDACTED]". -/
theorem c1_default_patterns_example :
    identifySensitiveText "Contact me at a@b.com or 555-123-4567" .nullSpec =
      .ok (some ⟨[⟨"a@b.com", 14, 7, "/([a-zA-Z0-9_.+-]+@[a-zA-Z0-9-]+\\.[a-zA-Z0-9-.]+)/g"⟩,
                  ⟨"555-123-4567", 25, 12,
                   "/(\\+\\d{1,3}[\\s-])?\\(?\\d{3}\\)?[\\s.-]?\\d{3}[\\s.-]?\\d{4}/g"⟩], 2⟩) ∧
    redactSensitiveContent "Contact me at a@b.com or 555-123-4567" .nullSpec =
      .ok (some "Contact me at [REDACTED] or [REDACTED]") :=
  ⟨rfl, rfl⟩

/-- C2 counterexample: the claim states the default pattern set is
returned for every empty spec shape, including the empty list; but the
empty array is truthy in JavaScript, so `compilePatterns([])` goes
through the map/filter pipeline and returns the empty pattern list,
not the defaults. -/
theorem c2_counterexample_empty_array :
    compilePatterns (.arr []) ≠ .ok DEFAULT_PATTERNS := by decide

/-- C2 (amended): the default pattern set is returned exactly for the
falsy spec shapes — absent (`null`/`undefined`) and the empty string;
a non-empty string spec compiles only the comma-split trimmed pieces
of the spec, an array spec compiles only its own elements (the empty
array yielding the empty pattern list, not the defaults), and in
neither case is any default pattern added (no merging). -/
theorem c2_amended_default_iff_falsy :
    compilePatterns .nullSpec = .ok DEFAULT_PATTERNS ∧
    compilePatterns (.strSpec "") = .ok DEFAULT_PATTERNS ∧
    (∀ s : String, s ≠ "" →
      compilePatterns (.strSpec s) =
        .ok ((((splitComma s.data).map (fun p => trimChars p)).map
          (fun p => compileStrSource p)).reduceOption)) ∧
    (∀ l : List PatternSource,
      compilePatterns (.arr l) = .ok ((l.map compileSource).reduceOption)) ∧
    compilePatterns (.arr []) = .ok [] := by
  refine ⟨rfl, rfl, fun s hs => ?_, fun l => rfl, rfl⟩
  simp only [compilePatterns]
  rw [if_neg hs]

/-- C2 witness: a concrete non-empty string spec goes through the
split/trim/compile pipeline. -/
theorem c2_witness :
    compilePatterns (.strSpec "foo,bar") =
      .ok ((((splitComma "foo,bar".data).map (fun p => trimChars p)).map
        (fun p => compileStrSource p)).reduceOption) :=
  c2_amended_default_iff_falsy.2.2.1 "foo,bar" (by decide)

/-- The empty-matching pattern `/a*/g`, as compiled from the source
string "a*". -/
def emptyMatchPattern : Regex := .starCls false ⟨false, [('a', 'a')]⟩

/-- C3 counterexample: the claim states that `identify` terminates for
every pattern, including patterns that can match the empty string; but
on the pattern `a*` and content "x", `exec` matches empty at position
0 and leaves `lastIndex` at 0, so the scan loop finds the same empty
match forever: no amount of fuel makes the loop finish (`identify`
returning `.ok none` is this model's rendering of the JavaScript call
never returning). -/
theorem c3_counterexample_empty_match :
    identifySensitiveText "x" (.arr [.strSrc "a*"]) = .ok none ∧
    ¬ ∃ fuel : Nat, (scanPattern fuel emptyMatchPattern "x".data 0).isSome = true := by
  constructor
  · rfl
  · rintro ⟨fuel, hf⟩
    have hall : ∀ f : Nat, scanPattern f emptyMatchPattern "x".data 0 = none :=
      scan_div (r := emptyMatchPattern) (s := "x".data) (i := 0) (by decide) (by decide)
    rw [hall fuel] at hf
    cases hf

/-- C3 (amended): for every content string and every compiled pattern
that cannot match the empty string, `identify` terminates (fuel
`content.length + 1` suffices for every pattern's scan), and within
each pattern's scan the position strictly advances: every match is
nonempty, each successive match starts at or after the previous
match's end, so no two matches of the same pattern overlap.  For
patterns that can match the empty string the scan loop diverges (see
the counterexample). -/
theorem c3_amended_termination_nonNullable (c : List Char) (ps : List CompiledPattern)
    (hnn : ∀ p ∈ ps, nonNullable p.re = true) :
    (identifyList c ps).isSome = true ∧
      ∀ p ∈ ps, ∃ pairs, scanPattern (c.length + 1) p.re c 0 = some pairs ∧
        chainFrom 0 pairs = true := by
  constructor
  · unfold identifyList
    have ht := scanAll_total c ps hnn
    cases hs : scanAll c ps with
    | none => rw [hs] at ht; cases ht
    | some ms => simp [hs]
  · intro p hp
    have h1 := hnn p hp
    have hsc := scan_total (s := c) h1 (c.length + 1) 0 (Nat.zero_le _) (by omega)
    cases hs : scanPattern (c.length + 1) p.re c 0 with
    | none => rw [hs] at hsc; cases hsc
    | some pairs => exact ⟨pairs, rfl, scan_chain _ _ _ hs⟩

/-- C3 witness: the default patterns cannot match empty, so a concrete
scan terminates with advancing positions. -/
theorem c3_witness :
    (identifyList "555".data DEFAULT_PATTERNS).isSome = true ∧
      ∀ p ∈ DEFAULT_PATTERNS, ∃ pairs,
        scanPattern ("555".data.length + 1) p.re "555".data 0 = some pairs ∧
        chainFrom 0 pairs = true :=
  c3_amended_termination_nonNullable "555".data DEFAULT_PATTERNS (by decide)

/-- C4: compilation never aborts on a spec mixing valid and invalid
sources — the compiled list is exactly the per-source compilations
with the failures dropped, in original relative order (for both the
array shape and the comma-split string shape); and when every source
is invalid the compiled list is empty and `identify` then returns zero
matches rather than an error. -/
theorem c4_invalid_sources_dropped :
    (∀ l : List PatternSource,
        compilePatterns (.arr l) = .ok ((l.map compileSource).reduceOption)) ∧
    (∀ s : String, s ≠ "" →
        compilePatterns (.strSpec s) =
          .ok ((((splitComma s.data).map (fun p => trimChars p)).map
            (fun p => compileStrSource p)).reduceOption)) ∧
    (∀ (l : List PatternSource) (content : String),
        (∀ x ∈ l, compileSource x = none) →
        compilePatterns (.arr l) = .ok [] ∧
        identifySensitiveText content (.arr l) = .ok (some ⟨[], 0⟩)) := by
  refine ⟨fun l => rfl, fun s hs => ?_, fun l content hinv => ?_⟩
  · simp only [compilePatterns]
    rw [if_neg hs]
  · have hz : (l.map compileSource).reduceOption = [] := by
      apply reduceOption_all_none
      intro x hx
      obtain ⟨y, hy, hxy⟩ := List.mem_map.mp hx
      subst hxy
      exact hinv y hy
    constructor
    · show Except.ok ((l.map compileSource).reduceOption) = .ok []
      rw [hz]
    · unfold identifySensitiveText
      have hcc : compilePatterns (.arr l) = .ok [] := by
        show Except.ok ((l.map compileSource).reduceOption) = .ok []
        rw [hz]
      rw [hcc]
      rfl

/-- C4 witness: a mixed list drops exactly the invalid `(` entry, and
an all-invalid list compiles to the empty pattern list with `identify`
then returning zero matches. -/
theorem c4_witness :
    compilePatterns (.arr [.strSrc "foo", .strSrc "(", .strSrc "bar"]) =
      .ok (([.strSrc "foo", .strSrc "(", .strSrc "bar"].map compileSource).reduceOption) ∧
    compilePatterns (.arr [.strSrc "(", .strSrc "["]) = .ok [] ∧
    identifySensitiveText "abc" (.arr [.strSrc "(", .strSrc "["]) = .ok (some ⟨[], 0⟩) := by
  refine ⟨c4_invalid_sources_dropped.1 _, ?_, ?_⟩
  · exact (c4_invalid_sources_dropped.2.2 [.strSrc "(", .strSrc "["] "abc" (by decide)).1
  · exact (c4_invalid_sources_dropped.2.2 [.strSrc "(", .strSrc "["] "abc" (by decide)).2

/-- C5 counterexample: the claim states every non-text content makes
all three operations fail with an InvalidInput error; but
`identifySensitiveText` performs no type check — `exec` coerces the
number 42 to the string "42" and the call returns a normal (ok, not
error) result. -/
theorem c5_counterexample_number_content :
    identifySensitiveTextJS (.num 42) .nullSpec = .ok (some ⟨[], 0⟩) := rfl

/-- C5 (amended): no operation produces an InvalidInput error.  For
non-text content, `identify` coerces the value to its string form and
returns a normal result (whenever the pattern spec compiles), while
`preview` and `redact` — whose compiled pattern list is nonempty —
throw a TypeError (the value has no `replace`/`match` method; `redact`
also throws on `null`/`undefined` via `content.length` regardless of
the pattern list). -/
theorem c5_amended_non_string_content (v : JSVal) (patterns : PatternSpec)
    (ps : List CompiledPattern)
    (hv : v.isStr = false) (hc : compilePatterns patterns = .ok ps) :
    identifySensitiveTextJS v patterns = .ok (identifyList (jsToString v).data ps) ∧
    (ps ≠ [] → previewSensitiveContentJS v patterns = .error .typeError ∧
      redactSensitiveContentJS v patterns = .error .typeError) := by
  constructor
  · show identifySensitiveText (jsToString v) patterns = _
    unfold identifySensitiveText
    rw [hc]
    rfl
  · intro hne
    constructor
    · simp only [previewSensitiveContentJS]
      rw [hc]
      cases ps with
      | nil => exact absurd rfl hne
      | cons p ps' =>
        cases v with
        | str s => simp [JSVal.isStr] at hv
        | num n => rfl
        | boolV b => rfl
        | nullV => rfl
        | undef => rfl
    · cases v with
      | str s => simp [JSVal.isStr] at hv
      | nullV => rfl
      | undef => rfl
      | num n =>
        simp only [redactSensitiveContentJS]
        rw [hc]
        cases ps with
        | nil => exact absurd rfl hne
        | cons p ps' => rfl
      | boolV b =>
        simp only [redactSensitiveContentJS]
        rw [hc]
        cases ps with
        | nil => exact absurd rfl hne
        | cons p ps' => rfl

/-- C5 witness: for the number 7 with the default patterns, `identify`
returns a normal result while `preview` and `redact` throw TypeError. -/
theorem c5_witness :
    identifySensitiveTextJS (.num 7) .nullSpec =
      .ok (identifyList (jsToString (.num 7)).data DEFAULT_PATTERNS) ∧
    previewSensitiveContentJS (.num 7) .nullSpec = .error .typeError ∧
    redactSensitiveContentJS (.num 7) .nullSpec = .error .typeError := by
  have h := c5_amended_non_string_content (.num 7) .nullSpec DEFAULT_PATTERNS rfl rfl
  exact ⟨h.1, h.2 (by decide)⟩

/-- C6: for the input "123-45-6789" with the default patterns,
`identify` returns exactly one match, produced by the SSN pattern
(its display form is the SSN regex), spanning the full token — in
particular the earlier phone pattern and the later credit-card pattern
produce no match on this input. -/
theorem c6_ssn_example :
    identifySensitiveText "123-45-6789" .nullSpec =
      .ok (some ⟨[⟨"123-45-6789", 0, 11, "/\\b\\d{3}[-.]?\\d{2}[-.]?\\d{4}\\b/g"⟩], 1⟩) := rfl

/-- C7 counterexample: the claim requires every match to end up inside
exactly one highlight marker even when a later pattern matches text an
earlier pattern already wrapped; with the patterns `ab` then `a` on
content "ab", the first pattern does match "ab" (see the identify
conjunct), yet the second pattern rewrites the letter `a` inside the
inserted marker markup itself, so the output does not contain the
wrapped match `<mark class="redact-highlight">ab</mark>` at all. -/
theorem c7_counterexample_rewrap :
    identifySensitiveText "ab" (.arr [.strSrc "ab", .strSrc "a"]) =
      .ok (some ⟨[⟨"ab", 0, 2, "/ab/g"⟩, ⟨"a", 0, 1, "/a/g"⟩], 2⟩) ∧
    previewContains "ab" (.arr [.strSrc "ab", .strSrc "a"]) (wrapMark "ab".data) =
      some false :=
  ⟨rfl, by decide⟩

/-- C7 (amended): for a single compiled pattern, the preview pass
decomposes the content into alternating untouched gaps and matches and
returns exactly that decomposition with each matched text wrapped in
one highlight marker and every gap emitted unchanged.  With several
patterns each pass has this form with respect to its own (already
rewritten) input buffer, but a later pattern may match inside an
earlier pattern's inserted markers and break them (see the
counterexample), so the claim's cross-pattern strengthening fails. -/
theorem c7_amended_single_pattern_wrap (c : List Char) (p : CompiledPattern) :
    ∃ segs trail, segments p.re c = some (segs, trail) ∧
      (segs.map fun gm => gm.1 ++ gm.2).flatten ++ trail = c ∧
      previewList c [p] = some ((segs.map fun gm => gm.1 ++ wrapMark gm.2).flatten ++ trail) := by
  have htot := segmentsFuel_total p.re c (c.length + 2) 0 0 (by omega) (by omega)
  cases hs : segmentsFuel p.re c (c.length + 2) 0 0 with
  | none => rw [hs] at htot; cases htot
  | some st =>
    obtain ⟨segs, trail⟩ := st
    refine ⟨segs, trail, hs, ?_, ?_⟩
    · have hr := segmentsFuel_reconstruct p.re c (c.length + 2) 0 0 segs trail
        (Nat.le_refl 0) hs
      simpa using hr
    · show (replaceFuel wrapMark p.re c (c.length + 2) 0 0).bind (fun c' => some c') = _
      have hrr := replaceFuel_eq_render wrapMark p.re c (c.length + 2) 0 0
      rw [hs] at hrr
      rw [hrr]
      rfl

/-- C8: whenever no compiled pattern of the spec has any match in the
content (including the empty compiled pattern list), `redact` returns
the content unchanged. -/
theorem c8_redact_unchanged_no_match (content : String) (patterns : PatternSpec)
    (ps : List CompiledPattern) (hc : compilePatterns patterns = .ok ps)
    (hnm : ∀ p ∈ ps, execFind p.re content.data 0 = none) :
    redactSensitiveContent content patterns = .ok (some content) := by
  unfold redactSensitiveContent
  rw [hc]
  have hr := redactList_no_match content.data ps hnm
  simp [Except.map, hr]

/-- C8 witness: no default pattern matches "hello", and `redact`
returns it unchanged. -/
theorem c8_witness : redactSensitiveContent "hello" .nullSpec = .ok (some "hello") :=
  c8_redact_unchanged_no_match "hello" .nullSpec DEFAULT_PATTERNS rfl (by decide)

/-- C9: a terminating `identify` returns its matches pattern-major —
one (possibly empty) block per pattern, in compiled-pattern order,
position-ascending and non-overlapping within each block — and every
match's text is the substring of the original, unmodified content at
the reported 0-based offset and length (`identify` only reads the
content; the result is a pure function of it). -/
theorem c9_pattern_major (c : List Char) (ps : List CompiledPattern) (res : ScanResult)
    (h : identifyList c ps = some res) :
    ∃ ls : List (List SMatch),
      List.Forall₂ (fun p l => matchesOfPattern c p = some l) ps ls ∧
      res.«matches» = ls.flatten ∧
      res.count = res.«matches».length ∧
      (∀ l ∈ ls, chainFrom 0 (l.map fun m => (m.index, m.length)) = true) ∧
      (∀ m ∈ res.«matches», m.text = String.mk ((c.drop m.index).take m.length)) := by
  unfold identifyList at h
  cases hsc : scanAll c ps with
  | none => rw [hsc] at h; cases h
  | some ms =>
    rw [hsc] at h
    simp only [Option.map_some', Option.some.injEq] at h
    subst h
    obtain ⟨ls, hf, hfl⟩ := scanAll_structure c ps ms hsc
    refine ⟨ls, hf, hfl, rfl, ?_, ?_⟩
    · intro l hl
      obtain ⟨p, _, hm⟩ := forall₂_exists_left hf l hl
      exact (matchesOfPattern_sound c p l hm).1
    · intro m hm
      rw [hfl] at hm
      obtain ⟨l, hl, hml⟩ := List.mem_flatten.mp hm
      obtain ⟨p, _, hmp⟩ := forall₂_exists_left hf l hl
      exact (matchesOfPattern_sound c p l hmp).2 m hml

/-- The concrete result `identify` returns on "a@b.com" with the
default patterns, used to instantiate the pattern-major theorem. -/
def c9SampleResult : ScanResult :=
  ⟨[⟨"a@b.com", 0, 7, "/([a-zA-Z0-9_.+-]+@[a-zA-Z0-9-]+\\.[a-zA-Z0-9-.]+)/g"⟩], 1⟩

/-- C9 witness: the pattern-major decomposition at a concrete input. -/
theorem c9_witness :
    ∃ ls : List (List SMatch),
      List.Forall₂ (fun p l => matchesOfPattern "a@b.com".data p = some l)
        DEFAULT_PATTERNS ls ∧
      c9SampleResult.«matches» = ls.flatten ∧
      c9SampleResult.count = c9SampleResult.«matches».length ∧
      (∀ l ∈ ls, chainFrom 0 (l.map fun m => (m.index, m.length)) = true) ∧
      (∀ m ∈ c9SampleResult.«matches»,
        m.text = String.mk (("a@b.com".data.drop m.index).take m.length)) :=
  c9_pattern_major "a@b.com".data DEFAULT_PATTERNS c9SampleResult rfl

/-- C10: the three operations are deterministic and stateless across
invocations.  From program start (all shared `lastIndex` fields zero),
any sequence of completed calls yields, for every call, exactly the
pure function of that call's own arguments — so two calls with the
same arguments agree no matter what other calls run in between — and
the shared default-pattern state is all-zero again after the sequence:
the `exec` loop's final failing `exec` resets `lastIndex`, and
`match`/`replace` reset it themselves, so no observable state
persists even though the default compiled pattern list is one shared
object whose scan-position field is mutated during matching. -/
theorem c10_stateless_deterministic (ops : List Op)
    (hall : ∀ op ∈ ops, completedOut (pureOp op) = true) :
    (runOps ops zeroState).1 = ops.map pureOp ∧
    (runOps ops zeroState).2 = zeroState := by
  rw [runOps_pure ops hall]
  exact ⟨rfl, rfl⟩

/-- A concrete call sequence: identify, redact, identify again on the
same arguments, all against the shared default patterns. -/
def c10SampleOps : List Op :=
  [.idOp "a@b.com" .nullSpec, .redOp "a@b.com" .nullSpec, .idOp "a@b.com" .nullSpec]

/-- C10 witness: the concrete sequence returns the pure results and
leaves the shared state at zero. -/
theorem c10_witness :
    (runOps c10SampleOps zeroState).1 = c10SampleOps.map pureOp ∧
    (runOps c10SampleOps zeroState).2 = zeroState :=
  c10_stateless_deterministic c10SampleOps (by decide)

end Redaction
